/-
Verification of the PathView viewing pipeline against its specification.

The development shallowly embeds the C++ sources: `double` arithmetic is
modelled by exact rational arithmetic (ℚ), machine integers by ℤ/ℕ with
explicit wrap-around where overflow matters, and fallible operations by
Option.  Each section names the source file it embeds.
-/
import Mathlib

namespace PathView

/-! ## Math primitives (Vec2), from the spec data model and Viewport.cpp -/

structure Vec2 where
  x : ℚ
  y : ℚ
  deriving DecidableEq, Repr

/-- Model of std::clamp(v, lo, hi): v < lo gives lo, hi < v gives hi, else v. -/
def stdClamp (v lo hi : ℚ) : ℚ :=
  if v < lo then lo else if hi < v then hi else v

theorem stdClamp_mem (v lo hi : ℚ) (h : lo ≤ hi) :
    lo ≤ stdClamp v lo hi ∧ stdClamp v lo hi ≤ hi := by
  unfold stdClamp
  split
  · exact ⟨le_refl lo, h⟩
  · split
    · exact ⟨h, le_refl hi⟩
    · constructor
      · exact le_of_not_lt (by assumption)
      · exact le_of_not_lt (by assumption)

/-! ## Viewport, embedded from src/Viewport.cpp

The state carries the fields of class Viewport.  Window and slide sizes are
integers in C++ but are only ever used in double arithmetic, so they are
rationals here. -/

structure ViewportState where
  windowWidth : ℚ
  windowHeight : ℚ
  slideWidth : ℚ
  slideHeight : ℚ
  position : Vec2
  zoom : ℚ
  minZoom : ℚ
  maxZoom : ℚ
  deriving DecidableEq, Repr

/-- Viewport::ScreenToSlide. -/
def ScreenToSlide (s : ViewportState) (screenPos : Vec2) : Vec2 :=
  ⟨screenPos.x / s.zoom + s.position.x, screenPos.y / s.zoom + s.position.y⟩

/-- Viewport::SlideToScreen. -/
def SlideToScreen (s : ViewportState) (slidePos : Vec2) : Vec2 :=
  ⟨(slidePos.x - s.position.x) * s.zoom, (slidePos.y - s.position.y) * s.zoom⟩

/-- Viewport::ClampToBounds.  The C++ test `viewportWidth >= slideWidth_`
is `slideWidth ≤ viewportWidth` here. -/
def ClampToBounds (s : ViewportState) : ViewportState :=
  let viewportWidth := s.windowWidth / s.zoom
  let viewportHeight := s.windowHeight / s.zoom
  let px :=
    if s.slideWidth ≤ viewportWidth then -(viewportWidth - s.slideWidth) / 2
    else stdClamp s.position.x 0 (s.slideWidth - viewportWidth)
  let py :=
    if s.slideHeight ≤ viewportHeight then -(viewportHeight - s.slideHeight) / 2
    else stdClamp s.position.y 0 (s.slideHeight - viewportHeight)
  { s with position := ⟨px, py⟩ }

/-- Zoom value after the clamp step of Viewport::ZoomAtPoint. -/
def zoomTarget (s : ViewportState) (zoomDelta : ℚ) : ℚ :=
  stdClamp (s.zoom * zoomDelta) s.minZoom s.maxZoom

/-- Intermediate state of Viewport::ZoomAtPoint just before ClampToBounds:
zoom updated, position set to slidePoint - screenPoint / zoom. -/
def zoomMid (s : ViewportState) (screenPoint : Vec2) (zoomDelta : ℚ) : ViewportState :=
  let slidePoint := ScreenToSlide s screenPoint
  let newZoom := zoomTarget s zoomDelta
  { s with zoom := newZoom,
           position := ⟨slidePoint.x - screenPoint.x / newZoom,
                        slidePoint.y - screenPoint.y / newZoom⟩ }

/-- Viewport::ZoomAtPoint. -/
def ZoomAtPoint (s : ViewportState) (screenPoint : Vec2) (zoomDelta : ℚ) : ViewportState :=
  let newZoom := zoomTarget s zoomDelta
  if newZoom = s.zoom then { s with zoom := newZoom }
  else ClampToBounds (zoomMid s screenPoint zoomDelta)

/-- Viewport::Pan. -/
def Pan (s : ViewportState) (deltaInSlideCoords : Vec2) : ViewportState :=
  ClampToBounds { s with position := ⟨s.position.x + deltaInSlideCoords.x,
                                      s.position.y + deltaInSlideCoords.y⟩ }

/-- Viewport::CenterOn. -/
def CenterOn (s : ViewportState) (slidePoint : Vec2) : ViewportState :=
  let viewportWidth := s.windowWidth / s.zoom
  let viewportHeight := s.windowHeight / s.zoom
  ClampToBounds { s with position := ⟨slidePoint.x - viewportWidth / 2,
                                      slidePoint.y - viewportHeight / 2⟩ }

/-- Viewport::ResetView. -/
def ResetView (s : ViewportState) : ViewportState :=
  let zoom := s.minZoom
  let viewportWidth := s.windowWidth / zoom
  let viewportHeight := s.windowHeight / zoom
  ClampToBounds { s with zoom := zoom,
                         position := ⟨(s.slideWidth - viewportWidth) / 2,
                                      (s.slideHeight - viewportHeight) / 2⟩ }

/-- Viewport::CalculateZoomLimits. -/
def CalculateZoomLimits (s : ViewportState) : ViewportState :=
  if s.slideWidth = 0 ∨ s.slideHeight = 0 then
    { s with minZoom := 1 / 100, maxZoom := 4 }
  else
    let zoomX := s.windowWidth / s.slideWidth
    let zoomY := s.windowHeight / s.slideHeight
    { s with minZoom := min zoomX zoomY * (95 / 100), maxZoom := 4 }

/-- Viewport::SetWindowSize. -/
def SetWindowSize (s : ViewportState) (w h : ℚ) : ViewportState :=
  ClampToBounds (CalculateZoomLimits { s with windowWidth := w, windowHeight := h })

/-- Post-clamp invariant on one axis: if the projected viewport fits inside
the slide the position is within [0, slide - viewport]; if it covers the
slide the slide is centered. -/
def axisClamped (pos vp slide : ℚ) : Prop :=
  (vp ≤ slide → 0 ≤ pos ∧ pos ≤ slide - vp) ∧ (slide ≤ vp → pos = -(vp - slide) / 2)

instance (pos vp slide : ℚ) : Decidable (axisClamped pos vp slide) := by
  unfold axisClamped; infer_instance

/-- Post-clamp invariant of a viewport state, both axes. -/
def viewportInBounds (s : ViewportState) : Prop :=
  axisClamped s.position.x (s.windowWidth / s.zoom) s.slideWidth ∧
  axisClamped s.position.y (s.windowHeight / s.zoom) s.slideHeight

instance (s : ViewportState) : Decidable (viewportInBounds s) := by
  unfold viewportInBounds; infer_instance

theorem axisClamped_of_clamp (pos vp slide : ℚ) :
    axisClamped (if slide ≤ vp then -(vp - slide) / 2 else stdClamp pos 0 (slide - vp))
      vp slide := by
  unfold axisClamped
  split_ifs with h
  · constructor
    · intro hle
      have hv : vp = slide := le_antisymm hle h
      rw [hv]
      norm_num
    · intro _
      rfl
  · constructor
    · intro _
      exact stdClamp_mem pos 0 (slide - vp) (by linarith [lt_of_not_le h])
    · intro hge
      exact absurd hge h

theorem clampToBounds_inBounds (s : ViewportState) : viewportInBounds (ClampToBounds s) := by
  simp only [viewportInBounds, ClampToBounds]
  exact ⟨axisClamped_of_clamp _ _ _, axisClamped_of_clamp _ _ _⟩

/-- Viewport state of the zoom-invariance scenario of the spec: window
1920 by 1080, slide 10000 by 8000, centered at the minimum zoom
min(1920/10000, 1080/8000) * 0.95 = 0.12825 = 513/4000. -/
def exampleViewport : ViewportState :=
  { windowWidth := 1920, windowHeight := 1080,
    slideWidth := 10000, slideHeight := 8000,
    position := ⟨(10000 - 1920 / (513 / 4000 : ℚ)) / 2,
                 (8000 - 1080 / (513 / 4000 : ℚ)) / 2⟩,
    zoom := 513 / 4000, minZoom := 513 / 4000, maxZoom := 4 }

/-- C1: Viewport::ZoomAtPoint computes the slide anchor ScreenToSlide(s)
before changing zoom, sets zoom to clamp(zoom * f, min_zoom, max_zoom),
returns without changing position when the clamped zoom equals the old zoom,
and otherwise sets position = anchor - s / new_zoom, so that ScreenToSlide(s)
is unchanged whenever the final clamp does not move the position, then clamps
to bounds. -/
theorem C1_zoomAtPoint_anchor_preserved (s : ViewportState) (pt : Vec2) (f : ℚ) :
    (ZoomAtPoint s pt f).zoom = zoomTarget s f ∧
    (zoomTarget s f = s.zoom → ZoomAtPoint s pt f = s) ∧
    (zoomTarget s f ≠ s.zoom →
      ZoomAtPoint s pt f = ClampToBounds (zoomMid s pt f) ∧
      (zoomMid s pt f).position =
        ⟨(ScreenToSlide s pt).x - pt.x / zoomTarget s f,
         (ScreenToSlide s pt).y - pt.y / zoomTarget s f⟩ ∧
      ScreenToSlide (zoomMid s pt f) pt = ScreenToSlide s pt ∧
      ((ClampToBounds (zoomMid s pt f)).position = (zoomMid s pt f).position →
        ScreenToSlide (ZoomAtPoint s pt f) pt = ScreenToSlide s pt)) := by
  refine ⟨?_, ?_, ?_⟩
  · simp only [ZoomAtPoint]
    split_ifs with hz
    · rfl
    · simp only [ClampToBounds, zoomMid]
  · intro hz
    simp only [ZoomAtPoint]
    rw [if_pos hz, hz]
  · intro hz
    have hmid : ScreenToSlide (zoomMid s pt f) pt = ScreenToSlide s pt := by
      simp only [zoomMid, ScreenToSlide]
      refine congrArg₂ Vec2.mk ?_ ?_ <;> ring
    refine ⟨by simp only [ZoomAtPoint, if_neg hz], rfl, hmid, ?_⟩
    intro hfix
    have hrw : ZoomAtPoint s pt f = ClampToBounds (zoomMid s pt f) := by
      simp only [ZoomAtPoint, if_neg hz]
    rw [hrw]
    have hzoomEq : (ClampToBounds (zoomMid s pt f)).zoom = (zoomMid s pt f).zoom := rfl
    calc ScreenToSlide (ClampToBounds (zoomMid s pt f)) pt
        = ScreenToSlide (zoomMid s pt f) pt := by
          simp only [ScreenToSlide, hzoomEq, hfix]
      _ = ScreenToSlide s pt := hmid

/-- Witness for C1: the zoom-invariance scenario of the spec.  Window
1920 by 1080, slide 10000 by 8000 centered at min zoom; zooming by 2 at the
window center keeps the anchor exactly under the cursor. -/
theorem C1_witness :
    ZoomAtPoint exampleViewport ⟨960, 540⟩ 2 =
      ClampToBounds (zoomMid exampleViewport ⟨960, 540⟩ 2) ∧
    ScreenToSlide (ZoomAtPoint exampleViewport ⟨960, 540⟩ 2) ⟨960, 540⟩ =
      ScreenToSlide exampleViewport ⟨960, 540⟩ :=
  have h := C1_zoomAtPoint_anchor_preserved exampleViewport ⟨960, 540⟩ 2
  have hne : zoomTarget exampleViewport 2 ≠ exampleViewport.zoom := by
    norm_num [zoomTarget, stdClamp, exampleViewport]
  have hfix : (ClampToBounds (zoomMid exampleViewport ⟨960, 540⟩ 2)).position =
      (zoomMid exampleViewport ⟨960, 540⟩ 2).position := by
    norm_num [ClampToBounds, zoomMid, ScreenToSlide, zoomTarget, stdClamp, exampleViewport]
  ⟨(h.2.2 hne).1, (h.2.2 hne).2.2.2 hfix⟩

/-- C2: after each Viewport operation that clamps (Pan, ZoomAtPoint,
CenterOn, ResetView, SetWindowSize), on each axis independently: if the
projected viewport window/zoom fits within the slide then
0 ≤ position ≤ slide - window/zoom, and if it covers the slide then
position = -(window/zoom - slide)/2, centering the slide.  The invariant on
the incoming state is needed only for ZoomAtPoint's early return, which
moves nothing. -/
theorem C2_operations_clamp_to_bounds (s : ViewportState) (d c pt : Vec2) (f w h : ℚ)
    (hpre : viewportInBounds s) :
    viewportInBounds (Pan s d) ∧ viewportInBounds (ZoomAtPoint s pt f) ∧
    viewportInBounds (CenterOn s c) ∧ viewportInBounds (ResetView s) ∧
    viewportInBounds (SetWindowSize s w h) := by
  refine ⟨clampToBounds_inBounds _, ?_, clampToBounds_inBounds _,
    clampToBounds_inBounds _, clampToBounds_inBounds _⟩
  simp only [ZoomAtPoint]
  split_ifs with hz
  · rw [hz]
    exact hpre
  · exact clampToBounds_inBounds _

/-- Witness for C2 at the example viewport. -/
theorem C2_witness :
    viewportInBounds (Pan exampleViewport ⟨5, -3⟩) ∧
    viewportInBounds (ZoomAtPoint exampleViewport ⟨960, 540⟩ 2) ∧
    viewportInBounds (CenterOn exampleViewport ⟨5000, 4000⟩) ∧
    viewportInBounds (ResetView exampleViewport) ∧
    viewportInBounds (SetWindowSize exampleViewport 800 600) :=
  C2_operations_clamp_to_bounds exampleViewport ⟨5, -3⟩ ⟨5000, 4000⟩ ⟨960, 540⟩ 2 800 600
    (by norm_num [viewportInBounds, axisClamped, exampleViewport])

/-- C9: for every point p and every viewport state with a nonzero zoom (every
state reachable with positive zoom limits), SlideToScreen(ScreenToSlide(p))
equals p, hence is within 1 pixel of p on each coordinate. -/
theorem C9_roundtrip_within_one_pixel (s : ViewportState) (p : Vec2) (hz : s.zoom ≠ 0) :
    |(SlideToScreen s (ScreenToSlide s p)).x - p.x| ≤ 1 ∧
    |(SlideToScreen s (ScreenToSlide s p)).y - p.y| ≤ 1 := by
  have hx : (SlideToScreen s (ScreenToSlide s p)).x = p.x := by
    simp only [SlideToScreen, ScreenToSlide]
    field_simp
    ring
  have hy : (SlideToScreen s (ScreenToSlide s p)).y = p.y := by
    simp only [SlideToScreen, ScreenToSlide]
    field_simp
    ring
  rw [hx, hy]
  norm_num

/-! ## SlideRenderer::SelectLevel, from src/SlideRenderer.cpp

The loader is represented by its list of level downsamples;
SlideLoader::GetLevelDownsample returns 1.0 out of range. -/

/-- SlideLoader::GetLevelDownsample over the loader's downsample list. -/
def getLevelDownsample (ds : List ℚ) (i : ℕ) : ℚ := ds.getD i 1

/-- Loop of SlideRenderer::SelectLevel: scan levels 1.. keeping the best
level; a level wins if its distance to the target downsample is smaller, or
equal with a smaller downsample.  bestDiff is always the distance of the
current best level, so it is recomputed from best here.  fuel bounds the
recursion and is chosen large enough that it never runs out. -/
def selectLevelGo (ds : List ℚ) (t : ℚ) (best : ℕ) (i : ℕ) (fuel : ℕ) : ℕ :=
  match fuel with
  | 0 => best
  | fuel + 1 =>
    if i < ds.length then
      let d := getLevelDownsample ds i
      let diff := |d - t|
      let bestDiff := |getLevelDownsample ds best - t|
      if diff < bestDiff ∨ (diff = bestDiff ∧ d < getLevelDownsample ds best) then
        selectLevelGo ds t i (i + 1) fuel
      else
        selectLevelGo ds t best (i + 1) fuel
    else best

/-- SlideRenderer::SelectLevel: target downsample is 1/zoom, scan starts at
level 1 with best = 0. -/
def SelectLevel (ds : List ℚ) (zoom : ℚ) : ℕ :=
  selectLevelGo ds (1 / zoom) 0 1 ds.length

/-- The best level is at least as close to the target downsample as every
level below k, and on distance ties its downsample is not larger. -/
def selBest (ds : List ℚ) (t : ℚ) (best k : ℕ) : Prop :=
  ∀ j < k, |getLevelDownsample ds best - t| ≤ |getLevelDownsample ds j - t| ∧
    (|getLevelDownsample ds best - t| = |getLevelDownsample ds j - t| →
      getLevelDownsample ds best ≤ getLevelDownsample ds j)

theorem selBest_of_le (ds : List ℚ) (t : ℚ) (best k m : ℕ) (h : selBest ds t best k)
    (hm : m ≤ k) : selBest ds t best m :=
  fun j hj => h j (lt_of_lt_of_le hj hm)

theorem selectLevelGo_spec (ds : List ℚ) (t : ℚ) :
    ∀ fuel i best, best < ds.length → selBest ds t best i → ds.length ≤ i + fuel →
      selectLevelGo ds t best i fuel < ds.length ∧
      selBest ds t (selectLevelGo ds t best i fuel) ds.length := by
  intro fuel
  induction fuel with
  | zero =>
    intro i best hb hsel hlen
    simp only [selectLevelGo]
    exact ⟨hb, selBest_of_le ds t best i ds.length hsel (by omega)⟩
  | succ fuel ih =>
    intro i best hb hsel hlen
    simp only [selectLevelGo]
    by_cases hi : i < ds.length
    · rw [if_pos hi]
      by_cases hc : |getLevelDownsample ds i - t| < |getLevelDownsample ds best - t| ∨
          (|getLevelDownsample ds i - t| = |getLevelDownsample ds best - t| ∧
            getLevelDownsample ds i < getLevelDownsample ds best)
      · rw [if_pos hc]
        refine ih (i + 1) i hi ?_ (by omega)
        intro j hj
        rcases Nat.lt_succ_iff_lt_or_eq.mp hj with hji | hji
        · have hold := hsel j hji
          rcases hc with hlt | ⟨heq, hdlt⟩
          · refine ⟨le_trans (le_of_lt hlt) hold.1, fun habs => ?_⟩
            exact absurd habs (ne_of_lt (lt_of_lt_of_le hlt hold.1))
          · refine ⟨heq ▸ hold.1, fun htie => ?_⟩
            exact le_of_lt (lt_of_lt_of_le hdlt (hold.2 (heq ▸ htie)))
        · subst hji
          exact ⟨le_refl _, fun _ => le_refl _⟩
      · rw [if_neg hc]
        push_neg at hc
        refine ih (i + 1) best hb ?_ (by omega)
        intro j hj
        rcases Nat.lt_succ_iff_lt_or_eq.mp hj with hji | hji
        · exact hsel j hji
        · subst hji
          exact ⟨hc.1, fun htie => hc.2 htie.symm⟩
    · rw [if_neg hi]
      exact ⟨hb, selBest_of_le ds t best i ds.length hsel (by omega)⟩

/-- C3: SelectLevel(zoom) minimizes the distance of the level downsample to
1/zoom over all levels; ties break to the strictly smaller downsample when
the downsamples are pairwise distinct; and on the pyramid [1, 2, 4, 8],
zoom 1 selects level 0, zoom 0.5 selects 1, zoom 0.25 selects 2, zooms 0.125
and 0.1 select 3, and zoom 10 selects 0. -/
theorem C3_selectLevel_minimizes (ds : List ℚ) (zoom : ℚ) (hne : ds ≠ [])
    (hnd : ds.Nodup) :
    SelectLevel ds zoom < ds.length ∧
    (∀ l < ds.length, l ≠ SelectLevel ds zoom →
      |getLevelDownsample ds (SelectLevel ds zoom) - 1 / zoom| ≤
        |getLevelDownsample ds l - 1 / zoom| ∧
      (|getLevelDownsample ds (SelectLevel ds zoom) - 1 / zoom| =
          |getLevelDownsample ds l - 1 / zoom| →
        getLevelDownsample ds (SelectLevel ds zoom) < getLevelDownsample ds l)) ∧
    SelectLevel [1, 2, 4, 8] 1 = 0 ∧ SelectLevel [1, 2, 4, 8] (1 / 2) = 1 ∧
    SelectLevel [1, 2, 4, 8] (1 / 4) = 2 ∧ SelectLevel [1, 2, 4, 8] (1 / 8) = 3 ∧
    SelectLevel [1, 2, 4, 8] (1 / 10) = 3 ∧ SelectLevel [1, 2, 4, 8] 10 = 0 := by
  have hlen : 0 < ds.length := List.length_pos.mpr hne
  have hsel0 : selBest ds (1 / zoom) 0 1 := by
    intro j hj
    have hj0 : j = 0 := by omega
    subst hj0
    exact ⟨le_refl _, fun _ => le_refl _⟩
  have hmain := selectLevelGo_spec ds (1 / zoom) ds.length 1 0 hlen hsel0 (by omega)
  refine ⟨hmain.1, fun l hl hne2 => ?_, ?_, ?_, ?_, ?_, ?_, ?_⟩
  · have h := hmain.2 l hl
    refine ⟨h.1, fun htie => lt_of_le_of_ne (h.2 htie) ?_⟩
    intro habs
    simp only [SelectLevel] at habs hne2
    rw [getLevelDownsample, getLevelDownsample, List.getD_eq_getElem ds 1 hmain.1,
      List.getD_eq_getElem ds 1 hl] at habs
    exact hne2 (hnd.getElem_inj_iff.mp habs).symm
  · norm_num [SelectLevel, selectLevelGo, getLevelDownsample]
  · norm_num [SelectLevel, selectLevelGo, getLevelDownsample]
  · norm_num [SelectLevel, selectLevelGo, getLevelDownsample]
  · norm_num [SelectLevel, selectLevelGo, getLevelDownsample]
  · norm_num [SelectLevel, selectLevelGo, getLevelDownsample]
  · norm_num [SelectLevel, selectLevelGo, getLevelDownsample, abs, max_def]

/-- Witness for C3 on the pyramid [1, 2, 4, 8] at zoom 2/3. -/
theorem C3_witness :
    SelectLevel [1, 2, 4, 8] (2 / 3) < 4 ∧
    (∀ l < ([1, 2, 4, 8] : List ℚ).length, l ≠ SelectLevel [1, 2, 4, 8] (2 / 3) →
      |getLevelDownsample [1, 2, 4, 8] (SelectLevel [1, 2, 4, 8] (2 / 3)) - 1 / (2 / 3)| ≤
        |getLevelDownsample [1, 2, 4, 8] l - 1 / (2 / 3)|) :=
  have h := C3_selectLevel_minimizes [1, 2, 4, 8] (2 / 3) (by simp) (by norm_num)
  ⟨h.1, fun l hl hne2 => (h.2.1 l hl hne2).1⟩

/-! ## TileCache (byte-capped LRU)

The TileCache implementation file is not among the sources (only its unit
tests and call sites are), so the cache is modelled from the spec, section
4.2.  Entries are kept most-recently-used first; each entry carries its data
byte size. -/

/-- TileKey: (level, tileX, tileY) identity. -/
structure TileKey where
  level : ℤ
  tileX : ℤ
  tileY : ℤ
  deriving DecidableEq, Repr

/-- Modelled from the spec: the TileCache state.  TileCache.cpp is missing
from the sources; per spec 4.2 the cache is a byte-capped LRU of
TileKey to TileData with hit/miss statistics.  entries is the LRU list,
head = MRU, tail = LRU; the second component of an entry is data.bytes. -/
structure TileCacheState where
  entries : List (TileKey × ℕ)
  maxMemory : ℕ
  hits : ℕ
  misses : ℕ
  deriving DecidableEq, Repr

/-- Spec invariant: memory_usage is the sum of the entries' byte sizes. -/
def memoryUsage (es : List (TileKey × ℕ)) : ℕ := (es.map Prod.snd).sum

/-- Modelled from the spec: has(key), lookup only. -/
def hasTile (c : TileCacheState) (k : TileKey) : Bool :=
  c.entries.any fun e => decide (e.1 = k)

/-- Modelled from the spec: the eviction loop of insert, unlinking the LRU
tail while usage exceeds capacity and the list is non-empty.  fuel bounds
the recursion; the list length is enough fuel, so it never runs out. -/
def evictWhile (cap : ℕ) (fuel : ℕ) (es : List (TileKey × ℕ)) : List (TileKey × ℕ) :=
  match fuel with
  | 0 => es
  | fuel + 1 =>
    if cap < memoryUsage es ∧ es ≠ [] then evictWhile cap fuel es.dropLast else es

/-- Modelled from the spec: insert(key, data): if the key is present the new
data is discarded (existing wins); else the tile is linked at MRU, its bytes
count toward usage, and LRU tiles are evicted while usage exceeds capacity. -/
def insertTile (c : TileCacheState) (k : TileKey) (bytes : ℕ) : TileCacheState :=
  if hasTile c k then c
  else
    let linked := (k, bytes) :: c.entries
    { c with entries := evictWhile c.maxMemory linked.length linked }

/-- Modelled from the spec: get(key): on a hit the node moves to MRU and
hits increments; on a miss, misses increments. -/
def getTile (c : TileCacheState) (k : TileKey) : Option ℕ × TileCacheState :=
  match c.entries.find? (fun e => decide (e.1 = k)) with
  | some e =>
    (some e.2, { c with entries := e :: c.entries.eraseP (fun x => decide (x.1 = k)),
                        hits := c.hits + 1 })
  | none => (none, { c with misses := c.misses + 1 })

theorem evictWhile_prefix (cap : ℕ) :
    ∀ fuel es, ∃ m, evictWhile cap fuel es = List.take m es := by
  intro fuel
  induction fuel with
  | zero =>
    intro es
    exact ⟨es.length, by simp [evictWhile]⟩
  | succ fuel ih =>
    intro es
    simp only [evictWhile]
    split_ifs with h
    · obtain ⟨m, hm⟩ := ih es.dropLast
      refine ⟨min m (es.length - 1), ?_⟩
      rw [hm, List.dropLast_eq_take, List.take_take]
    · exact ⟨es.length, by simp⟩

theorem evictWhile_bounded (cap : ℕ) :
    ∀ fuel es, es.length ≤ fuel →
      memoryUsage (evictWhile cap fuel es) ≤ cap ∨ evictWhile cap fuel es = [] := by
  intro fuel
  induction fuel with
  | zero =>
    intro es hes
    right
    simpa [evictWhile] using List.eq_nil_of_length_eq_zero (by omega)
  | succ fuel ih =>
    intro es hes
    simp only [evictWhile]
    split_ifs with h
    · exact ih es.dropLast (by simp [List.length_dropLast]; omega)
    · push_neg at h
      by_cases he : es = []
      · right; exact he
      · left; exact le_of_not_lt fun hx => he (h hx)

theorem evictWhile_noop (cap fuel : ℕ) (es : List (TileKey × ℕ))
    (h : memoryUsage es ≤ cap) : evictWhile cap fuel es = es := by
  cases fuel with
  | zero => rfl
  | succ fuel =>
    simp only [evictWhile]
    rw [if_neg]
    intro hx
    exact absurd hx.1 (not_lt_of_le h)

/-- Scenario of the spec LRU test: capacity 500000, insert A, B, C of
200000 bytes each. -/
def lruScenario : TileCacheState :=
  insertTile (insertTile (insertTile ⟨[], 500000, 0, 0⟩ ⟨0, 0, 0⟩ 200000)
    ⟨0, 1, 0⟩ 200000) ⟨0, 2, 0⟩ 200000

/-- C4: TileCache is a byte-capped LRU.  Inserting a present key keeps the
existing tile (a no-op); inserting a new key links it at MRU and evicts only
from the LRU end, stopping as soon as usage fits (no eviction at all when the
new total fits); after insert, usage is within capacity unless everything was
evicted.  A GetTile hit yields the stored size, moves that tile to MRU, and
counts a hit.  In the spec scenario (capacity 500000, tiles A, B, C of
200000 bytes each), A is evicted, B and C remain, and usage is 400000. -/
theorem C4_tileCache_lru_contract (c : TileCacheState) (k : TileKey) (bytes : ℕ)
    (hmiss : hasTile c k = false) :
    (∀ c2 : TileCacheState, ∀ k2, hasTile c2 k2 = true → insertTile c2 k2 bytes = c2) ∧
    (∃ m, (insertTile c k bytes).entries = List.take m ((k, bytes) :: c.entries)) ∧
    (memoryUsage (insertTile c k bytes).entries ≤ c.maxMemory ∨
      (insertTile c k bytes).entries = []) ∧
    (bytes + memoryUsage c.entries ≤ c.maxMemory →
      (insertTile c k bytes).entries = (k, bytes) :: c.entries) ∧
    (∀ c2 : TileCacheState, ∀ k2, hasTile c2 k2 = true →
      ∃ b2, (getTile c2 k2).1 = some b2 ∧
        (getTile c2 k2).2.entries.head? = some (k2, b2) ∧
        (getTile c2 k2).2.hits = c2.hits + 1) ∧
    hasTile lruScenario ⟨0, 0, 0⟩ = false ∧ hasTile lruScenario ⟨0, 1, 0⟩ = true ∧
    hasTile lruScenario ⟨0, 2, 0⟩ = true ∧ memoryUsage lruScenario.entries = 400000 := by
  refine ⟨?_, ?_, ?_, ?_, ?_, by decide, by decide, by decide, by decide⟩
  · intro c2 k2 h
    simp [insertTile, h]
  · simp only [insertTile, hmiss, Bool.false_eq_true, if_false]
    exact evictWhile_prefix c.maxMemory _ _
  · simp only [insertTile, hmiss, Bool.false_eq_true, if_false]
    exact evictWhile_bounded c.maxMemory _ _ (le_refl _)
  · intro hfits
    simp only [insertTile, hmiss, Bool.false_eq_true, if_false]
    exact evictWhile_noop _ _ _ (by simpa [memoryUsage] using hfits)
  · intro c2 k2 h
    simp only [hasTile, List.any_eq_true] at h
    obtain ⟨e, he, hk⟩ := h
    obtain ⟨e2, he2⟩ : ∃ e2, c2.entries.find? (fun x => decide (x.1 = k2)) = some e2 := by
      cases hfound : c2.entries.find? (fun x => decide (x.1 = k2)) with
      | none =>
        rw [List.find?_eq_none] at hfound
        exact absurd hk (by simpa using hfound e he)
      | some e2 => exact ⟨e2, rfl⟩
    have hkey : e2.1 = k2 := by
      have := List.find?_some he2
      simpa using this
    refine ⟨e2.2, ?_, ?_, ?_⟩
    · simp [getTile, he2]
    · have hhead : (getTile c2 k2).2.entries.head? = some e2 := by simp [getTile, he2]
      rw [hhead, ← hkey]
    · simp [getTile, he2]

/-- Witness for C4: a concrete miss insert within capacity. -/
theorem C4_witness :
    (insertTile ⟨[(⟨0, 0, 0⟩, 100)], 1000, 0, 0⟩ ⟨0, 1, 0⟩ 200).entries =
      (⟨0, 1, 0⟩, 200) :: [(⟨0, 0, 0⟩, 100)] :=
  (C4_tileCache_lru_contract ⟨[(⟨0, 0, 0⟩, 100)], 1000, 0, 0⟩ ⟨0, 1, 0⟩ 200
    (by decide)).2.2.2.1 (by decide)

/-! ## PolygonTriangulator, from src/core/PolygonTriangulator.cpp -/

/-- Vector indexing vertices[i], total with a default. -/
def vGet (vs : List Vec2) (i : ℕ) : Vec2 := vs.getD i ⟨0, 0⟩

/-- Vector indexing indices[i], total with a default. -/
def iGet (l : List ℕ) (i : ℕ) : ℕ := l.getD i 0

/-- PolygonTriangulator::SignedArea. -/
def SignedArea (a b c : Vec2) : ℚ :=
  (b.x - a.x) * (c.y - a.y) - (b.y - a.y) * (c.x - a.x)

/-- PolygonTriangulator::PointInTriangle, barycentric sign test. -/
def PointInTriangle (p a b c : Vec2) : Bool :=
  let d1 := SignedArea p a b
  let d2 := SignedArea p b c
  let d3 := SignedArea p c a
  let hasNeg := d1 < 0 ∨ d2 < 0 ∨ d3 < 0
  let hasPos := 0 < d1 ∨ 0 < d2 ∨ 0 < d3
  decide (¬(hasNeg ∧ hasPos))

/-- PolygonTriangulator::IsConvex with kEpsilon = 1e-12. -/
def IsConvex (a b c : Vec2) (isCCW : Bool) : Bool :=
  let cross := (b.x - a.x) * (c.y - b.y) - (b.y - a.y) * (c.x - b.x)
  let eps : ℚ := 1 / 1000000000000
  if isCCW then decide (eps < cross) else decide (cross < -eps)

/-- PolygonTriangulator::IsEar over the active index list. -/
def IsEar (vertices : List Vec2) (indices : List ℕ) (i : ℕ) (isCCW : Bool) : Bool :=
  let n := indices.length
  let prevIdx := if i = 0 then n - 1 else i - 1
  let nextIdx := if i = n - 1 then 0 else i + 1
  let prev := vGet vertices (iGet indices prevIdx)
  let curr := vGet vertices (iGet indices i)
  let next := vGet vertices (iGet indices nextIdx)
  if IsConvex prev curr next isCCW then
    (List.range n).all fun j =>
      if j = prevIdx ∨ j = i ∨ j = nextIdx then true
      else !PointInTriangle (vGet vertices (iGet indices j)) prev curr next
  else false

/-- Signed area of the whole polygon (the winding test of Triangulate). -/
def polygonSignedArea (vertices : List Vec2) : ℚ :=
  (List.range vertices.length).foldl
    (fun acc i =>
      let j := (i + 1) % vertices.length
      acc + ((vGet vertices i).x * (vGet vertices j).y -
        (vGet vertices j).x * (vGet vertices i).y)) 0

/-- Triangle emitted when index position i of the active list is an ear. -/
def earTriangle (indices : List ℕ) (i : ℕ) : List ℕ :=
  let n := indices.length
  let prevIdx := if i = 0 then n - 1 else i - 1
  let nextIdx := if i = n - 1 then 0 else i + 1
  [iGet indices prevIdx, iGet indices i, iGet indices nextIdx]

/-- The final triangle appended after the loop when three indices remain. -/
def earExit (indices : List ℕ) : List ℕ :=
  if indices.length = 3 then [iGet indices 0, iGet indices 1, iGet indices 2] else []

/-- Fan helper: triangles (i0, l[j], l[j+1]) over consecutive pairs of l. -/
def fanGo (i0 : ℕ) : List ℕ → List ℕ
  | a :: b :: rest => i0 :: a :: b :: fanGo i0 (b :: rest)
  | _ => []

/-- Fallback fan triangulation used when no ear is found. -/
def fanTriangles (indices : List ℕ) : List ℕ :=
  match indices with
  | i0 :: rest => fanGo i0 rest
  | [] => []

/-- Ear-clipping loop of PolygonTriangulator::Triangulate.  iterations
counts ear steps against maxIter (the C++ safety limit of 2n); fuel bounds
the recursion and is chosen so it never runs out. -/
def earClipLoop (vertices : List Vec2) (isCCW : Bool) (indices : List ℕ)
    (iterations maxIter : ℕ) (fuel : ℕ) : List ℕ :=
  match fuel with
  | 0 => earExit indices
  | fuel + 1 =>
    if 3 < indices.length ∧ iterations < maxIter then
      match (List.range indices.length).find? (fun i => IsEar vertices indices i isCCW) with
      | some i => earTriangle indices i ++
          earClipLoop vertices isCCW (indices.eraseIdx i) (iterations + 1) maxIter fuel
      | none => fanTriangles indices
    else earExit indices

/-- PolygonTriangulator::Triangulate. -/
def Triangulate (vertices : List Vec2) : List ℕ :=
  if vertices.length < 3 then []
  else if vertices.length = 3 then [0, 1, 2]
  else
    let isCCW := decide (0 < polygonSignedArea vertices)
    earClipLoop vertices isCCW (List.range vertices.length) 0 (2 * vertices.length)
      vertices.length

/-- Every emitted triangle, read off three indices at a time, has three
pairwise-distinct vertex indices. -/
def TriplesDistinct (l : List ℕ) : Prop :=
  ∀ k, 3 * k + 2 < l.length →
    l.getD (3 * k) 0 ≠ l.getD (3 * k + 1) 0 ∧
    l.getD (3 * k) 0 ≠ l.getD (3 * k + 2) 0 ∧
    l.getD (3 * k + 1) 0 ≠ l.getD (3 * k + 2) 0

theorem triplesDistinct_nil : TriplesDistinct [] := by
  intro k hk
  simp at hk

theorem triplesDistinct_cons3 (a b c : ℕ) (l : List ℕ)
    (hab : a ≠ b) (hac : a ≠ c) (hbc : b ≠ c) (hl : TriplesDistinct l) :
    TriplesDistinct (a :: b :: c :: l) := by
  intro k hk
  cases k with
  | zero => simpa using ⟨hab, hac, hbc⟩
  | succ k =>
    have e0 : 3 * (k + 1) = 3 * k + 1 + 1 + 1 := by ring
    have e1 : 3 * (k + 1) + 1 = 3 * k + 1 + 1 + 1 + 1 := by ring
    have e2 : 3 * (k + 1) + 2 = 3 * k + 2 + 1 + 1 + 1 := by ring
    have hk2 : 3 * k + 2 < l.length := by
      simp only [List.length_cons] at hk
      omega
    have h := hl k hk2
    refine ⟨?_, ?_, ?_⟩
    · rw [e1, e0]
      simp only [List.getD_cons_succ]
      exact h.1
    · rw [e2, e0]
      simp only [List.getD_cons_succ]
      exact h.2.1
    · rw [e2, e1]
      simp only [List.getD_cons_succ]
      exact h.2.2

theorem iGet_mem (l : List ℕ) (p : ℕ) (hp : p < l.length) : iGet l p ∈ l := by
  rw [iGet, List.getD_eq_getElem l 0 hp]
  exact List.getElem_mem hp

theorem iGet_ne_of_nodup (l : List ℕ) (hnd : l.Nodup) (p q : ℕ)
    (hp : p < l.length) (hq : q < l.length) (hpq : p ≠ q) : iGet l p ≠ iGet l q := by
  rw [iGet, iGet, List.getD_eq_getElem l 0 hp, List.getD_eq_getElem l 0 hq]
  intro habs
  exact hpq (hnd.getElem_inj_iff.mp habs)

theorem fanGo_length (i0 : ℕ) (l : List ℕ) : (fanGo i0 l).length = 3 * (l.length - 1) := by
  induction l with
  | nil => simp [fanGo]
  | cons a rest ih =>
    cases rest with
    | nil => simp [fanGo]
    | cons b rest2 =>
      simp only [fanGo, List.length_cons, ih]
      omega

theorem fanGo_mem (i0 : ℕ) (l : List ℕ) : ∀ x ∈ fanGo i0 l, x = i0 ∨ x ∈ l := by
  induction l with
  | nil => simp [fanGo]
  | cons a rest ih =>
    cases rest with
    | nil => simp [fanGo]
    | cons b rest2 =>
      intro x hx
      simp only [fanGo, List.mem_cons] at hx
      rcases hx with rfl | rfl | rfl | hx
      · exact Or.inl rfl
      · simp
      · simp
      · rcases ih x hx with h | h
        · exact Or.inl h
        · right
          simp only [List.mem_cons] at h ⊢
          tauto

theorem fanGo_triples (i0 : ℕ) (l : List ℕ) (hnotin : i0 ∉ l) (hnd : l.Nodup) :
    TriplesDistinct (fanGo i0 l) := by
  induction l with
  | nil => exact triplesDistinct_nil
  | cons a rest ih =>
    cases rest with
    | nil =>
      simp only [fanGo]
      exact triplesDistinct_nil
    | cons b rest2 =>
      simp only [fanGo]
      have hia : i0 ≠ a := fun h => hnotin (h ▸ List.mem_cons_self a (b :: rest2))
      have hib : i0 ≠ b := fun h => hnotin (by simp [h])
      have hab : a ≠ b := by
        have := List.nodup_cons.mp hnd
        exact fun h => this.1 (by simp [h])
      refine triplesDistinct_cons3 i0 a b _ hia hib hab ?_
      exact ih (fun h => hnotin (List.mem_cons_of_mem a h)) (List.nodup_cons.mp hnd).2

theorem fanTriangles_spec (indices : List ℕ) (hnd : indices.Nodup) :
    (fanTriangles indices).length = 3 * (indices.length - 2) ∧
    (∀ x ∈ fanTriangles indices, x ∈ indices) ∧ TriplesDistinct (fanTriangles indices) := by
  cases indices with
  | nil => exact ⟨by simp [fanTriangles], by simp [fanTriangles], triplesDistinct_nil⟩
  | cons i0 rest =>
    have hsplit := List.nodup_cons.mp hnd
    refine ⟨?_, ?_, ?_⟩
    · simp only [fanTriangles, fanGo_length, List.length_cons]
      omega
    · intro x hx
      rcases fanGo_mem i0 rest x hx with h | h
      · simp [h]
      · exact List.mem_cons_of_mem i0 h
    · exact fanGo_triples i0 rest hsplit.1 hsplit.2

theorem earExit_spec (indices : List ℕ) (hnd : indices.Nodup)
    (hlen : indices.length = 3) :
    (earExit indices).length = 3 * (indices.length - 2) ∧
    (∀ x ∈ earExit indices, x ∈ indices) ∧ TriplesDistinct (earExit indices) := by
  have hform : earExit indices = [iGet indices 0, iGet indices 1, iGet indices 2] := by
    simp [earExit, hlen]
  refine ⟨by simp [hform, hlen], ?_, ?_⟩
  · intro x hx
    rw [hform] at hx
    simp only [List.mem_cons, List.not_mem_nil, or_false] at hx
    rcases hx with rfl | rfl | rfl
    · exact iGet_mem indices 0 (by omega)
    · exact iGet_mem indices 1 (by omega)
    · exact iGet_mem indices 2 (by omega)
  · rw [hform]
    refine triplesDistinct_cons3 _ _ _ []
      (iGet_ne_of_nodup indices hnd 0 1 (by omega) (by omega) (by omega))
      (iGet_ne_of_nodup indices hnd 0 2 (by omega) (by omega) (by omega))
      (iGet_ne_of_nodup indices hnd 1 2 (by omega) (by omega) (by omega))
      triplesDistinct_nil

theorem earClipLoop_spec (vertices : List Vec2) (ccw : Bool) :
    ∀ fuel indices iterations maxIter, indices.Nodup → 3 ≤ indices.length →
      indices.length ≤ fuel + 3 → iterations + indices.length ≤ maxIter + 3 →
      (earClipLoop vertices ccw indices iterations maxIter fuel).length =
          3 * (indices.length - 2) ∧
      (∀ x ∈ earClipLoop vertices ccw indices iterations maxIter fuel, x ∈ indices) ∧
      TriplesDistinct (earClipLoop vertices ccw indices iterations maxIter fuel) := by
  intro fuel
  induction fuel with
  | zero =>
    intro indices iterations maxIter hnd h3 hfuel hiter
    simp only [earClipLoop]
    exact earExit_spec indices hnd (by omega)
  | succ fuel ih =>
    intro indices iterations maxIter hnd h3 hfuel hiter
    simp only [earClipLoop]
    by_cases hcond : 3 < indices.length ∧ iterations < maxIter
    · rw [if_pos hcond]
      cases hfind : (List.range indices.length).find?
          (fun i => IsEar vertices indices i ccw) with
      | some i =>
        have hi : i < indices.length :=
          List.mem_range.mp (List.mem_of_find?_eq_some hfind)
        have hlen2 : (indices.eraseIdx i).length = indices.length - 1 :=
          List.length_eraseIdx_of_lt hi
        obtain ⟨ihl, ihm, iht⟩ := ih (indices.eraseIdx i) (iterations + 1) maxIter
          (List.Nodup.eraseIdx i hnd) (by omega) (by omega) (by omega)
        have hprev : (if i = 0 then indices.length - 1 else i - 1) < indices.length := by
          split_ifs <;> omega
        have hnext : (if i = indices.length - 1 then 0 else i + 1) < indices.length := by
          split_ifs <;> omega
        have hpc : (if i = 0 then indices.length - 1 else i - 1) ≠ i := by
          split_ifs <;> omega
        have hpn : (if i = 0 then indices.length - 1 else i - 1) ≠
            (if i = indices.length - 1 then 0 else i + 1) := by
          rcases hcond with ⟨h4, _⟩
          split_ifs <;> omega
        have hcn : i ≠ (if i = indices.length - 1 then 0 else i + 1) := by
          rcases hcond with ⟨h4, _⟩
          split_ifs <;> omega
        refine ⟨?_, ?_, ?_⟩
        · simp only [earTriangle, List.cons_append, List.nil_append, List.length_cons,
            ihl, hlen2]
          omega
        · intro x hx
          simp only [earTriangle, List.cons_append, List.nil_append, List.mem_cons] at hx
          rcases hx with rfl | rfl | rfl | hx
          · exact iGet_mem indices _ hprev
          · exact iGet_mem indices _ hi
          · exact iGet_mem indices _ hnext
          · exact List.mem_of_mem_eraseIdx (ihm x hx)
        · simp only [earTriangle, List.cons_append, List.nil_append]
          exact triplesDistinct_cons3 _ _ _ _
            (iGet_ne_of_nodup indices hnd _ _ hprev hi hpc)
            (iGet_ne_of_nodup indices hnd _ _ hprev hnext hpn)
            (iGet_ne_of_nodup indices hnd _ _ hi hnext hcn)
            iht
      | none => exact fanTriangles_spec indices hnd
    · rw [if_neg hcond]
      have hlen3 : indices.length = 3 := by
        rcases not_and_or.mp hcond with h | h <;> omega
      exact earExit_spec indices hnd hlen3

/-- C5: for every vertex list (in particular every simple polygon) with
n >= 3 vertices, Triangulate returns exactly 3 * (n - 2) indices, each in
[0, n), with three pairwise-distinct indices per emitted triangle; for
n < 3 it returns the empty list and for n = 3 exactly [0, 1, 2]. -/
theorem C5_triangulate_output_shape (vertices : List Vec2) :
    (vertices.length < 3 → Triangulate vertices = []) ∧
    (vertices.length = 3 → Triangulate vertices = [0, 1, 2]) ∧
    (3 ≤ vertices.length →
      (Triangulate vertices).length = 3 * (vertices.length - 2) ∧
      (∀ x ∈ Triangulate vertices, x < vertices.length) ∧
      TriplesDistinct (Triangulate vertices)) := by
  refine ⟨?_, ?_, ?_⟩
  · intro h
    simp [Triangulate, h]
  · intro h
    simp [Triangulate, h]
  · intro h3
    by_cases heq : vertices.length = 3
    · refine ⟨?_, ?_, ?_⟩
      · simp [Triangulate, heq]
      · intro x hx
        simp only [Triangulate, heq] at hx
        norm_num at hx
        rcases hx with rfl | rfl | rfl <;> omega
      · simp only [Triangulate, heq]
        norm_num
        intro k hk
        have hk0 : k = 0 := by
          simp only [List.length_cons, List.length_nil] at hk
          omega
        subst hk0
        refine ⟨by decide, by decide, by decide⟩
    · have h4 : 3 < vertices.length := by omega
      have hun : Triangulate vertices =
          earClipLoop vertices (decide (0 < polygonSignedArea vertices))
            (List.range vertices.length) 0 (2 * vertices.length) vertices.length := by
        simp only [Triangulate]
        rw [if_neg (by omega), if_neg heq]
      obtain ⟨hl, hm, ht⟩ := earClipLoop_spec vertices
        (decide (0 < polygonSignedArea vertices)) vertices.length
        (List.range vertices.length) 0 (2 * vertices.length)
        (List.nodup_range _) (by simp; omega) (by simp) (by simp; omega)
      rw [hun]
      refine ⟨by simpa using hl, fun x hx => ?_, ht⟩
      exact List.mem_range.mp (hm x hx)

/-- Witness for C5 on the unit square (4 vertices): 6 indices in two
triangles. -/
theorem C5_witness :
    (Triangulate [⟨0, 0⟩, ⟨1, 0⟩, ⟨1, 1⟩, ⟨0, 1⟩]).length = 3 * 2 ∧
    (∀ x ∈ Triangulate [⟨0, 0⟩, ⟨1, 0⟩, ⟨1, 1⟩, ⟨0, 1⟩], x < 4) ∧
    TriplesDistinct (Triangulate [⟨0, 0⟩, ⟨1, 0⟩, ⟨1, 1⟩, ⟨0, 1⟩]) := by
  have h := (C5_triangulate_output_shape [⟨0, 0⟩, ⟨1, 0⟩, ⟨1, 1⟩, ⟨0, 1⟩]).2.2
    (by norm_num)
  simpa using h

/-! ## PolygonIndex, from src/core/PolygonIndex.cpp

The Rect math primitive's header is not among the sources, so Rect and its
intersects test are modelled from the spec data model ("axis-aligned
rectangle with contains/intersects", "intersects(other) standard AABB").
Polygons are represented by their bounding boxes and identified by their
index in the built vector (the C++ code identifies them by pointer). -/

/-- Modelled from the spec: Rect = (x, y, w, h). -/
structure Rect where
  x : ℚ
  y : ℚ
  width : ℚ
  height : ℚ
  deriving DecidableEq, Repr

/-- Modelled from the spec: standard AABB overlap test of Rect::Intersects. -/
def Rect.Intersects (a b : Rect) : Bool :=
  decide (a.x < b.x + b.width ∧ b.x < a.x + a.width ∧
    a.y < b.y + b.height ∧ b.y < a.y + a.height)

/-- static_cast int of a double: truncation toward zero. -/
def cTrunc (q : ℚ) : ℤ := if q < 0 then ⌈q⌉ else ⌊q⌋

/-- PolygonIndex::SlideToGridCell on one axis: truncate the coordinate over
the cell size and clamp into [0, grid - 1]. -/
def slideToCell (cellSize : ℚ) (grid : ℤ) (x : ℚ) : ℤ :=
  max 0 (min (cTrunc (x / cellSize)) (grid - 1))

/-- Bounding box of the polygon at index p of the built vector. -/
def bboxOf (polys : List Rect) (p : ℕ) : Rect := polys.getD p ⟨0, 0, 0, 0⟩

/-- Integers from lo to hi inclusive. -/
def cellList (lo hi : ℤ) : List ℤ :=
  (List.range (hi + 1 - lo).toNat).map fun k : ℕ => lo + (k : ℤ)

/-- Contents of grid cell (cx, cy) after PolygonIndex::Build: the polygons,
in insertion order, whose bounding-box cell range contains the cell. -/
def gridCell (polys : List Rect) (cw ch : ℚ) (gw gh : ℤ) (cx cy : ℤ) : List ℕ :=
  (List.range polys.length).filter fun p =>
    let r := bboxOf polys p
    decide (slideToCell cw gw r.x ≤ cx ∧ cx ≤ slideToCell cw gw (r.x + r.width) ∧
      slideToCell ch gh r.y ≤ cy ∧ cy ≤ slideToCell ch gh (r.y + r.height))

/-- PolygonIndex::QueryRegion: collect the polygons of every cell the query
rectangle reaches, deduplicate (the C++ code sorts and uniques pointers;
dedup keeps the same set without order, which the contract does not fix),
and filter by actual bounding-box intersection. -/
def QueryRegion (polys : List Rect) (cw ch : ℚ) (gw gh : ℤ) (region : Rect) : List ℕ :=
  let minX := slideToCell cw gw region.x
  let maxX := slideToCell cw gw (region.x + region.width)
  let minY := slideToCell ch gh region.y
  let maxY := slideToCell ch gh (region.y + region.height)
  let cells := (cellList minY maxY).flatMap fun cy =>
    (cellList minX maxX).map fun cx => (cx, cy)
  let candidates := cells.flatMap fun c => gridCell polys cw ch gw gh c.1 c.2
  candidates.dedup.filter fun p => Rect.Intersects (bboxOf polys p) region

theorem cTrunc_mono (a b : ℚ) (h : a ≤ b) : cTrunc a ≤ cTrunc b := by
  unfold cTrunc
  split_ifs with h1 h2 h2
  · exact Int.ceil_le_ceil h
  · exact le_trans (Int.ceil_le.mpr (by exact_mod_cast le_of_lt h1))
      (Int.floor_nonneg.mpr (not_lt.mp h2))
  · exact absurd (lt_of_le_of_lt h h2) h1
  · exact Int.floor_le_floor h

theorem slideToCell_mono (cellSize : ℚ) (grid : ℤ) (a b : ℚ) (hc : 0 < cellSize)
    (h : a ≤ b) : slideToCell cellSize grid a ≤ slideToCell cellSize grid b := by
  unfold slideToCell
  have hd : a / cellSize ≤ b / cellSize := (div_le_div_iff_of_pos_right hc).mpr h
  exact max_le_max (le_refl 0) (min_le_min (cTrunc_mono _ _ hd) (le_refl _))

theorem mem_cellList (lo hi x : ℤ) : x ∈ cellList lo hi ↔ lo ≤ x ∧ x ≤ hi := by
  unfold cellList
  constructor
  · intro hx
    obtain ⟨k, hk, hke⟩ := List.mem_map.mp hx
    rw [List.mem_range] at hk
    omega
  · intro h
    refine List.mem_map.mpr ⟨(x - lo).toNat, ?_, ?_⟩
    · rw [List.mem_range]
      omega
    · omega

/-- C6: QueryRegion returns exactly the built polygons whose bounding box
intersects the query rectangle: every such polygon is returned, nothing
whose bounding box misses the rectangle is returned, and each polygon
appears at most once.  The cell sizes must be positive (grid at least 1 by
1 over a positive slide) and the rectangles are proper (nonnegative
extents). -/
theorem C6_queryRegion_exact (polys : List Rect) (cw ch : ℚ) (gw gh : ℤ)
    (region : Rect) (hcw : 0 < cw) (hch : 0 < ch)
    (hpolys : ∀ r ∈ polys, 0 ≤ r.width ∧ 0 ≤ r.height)
    (hrw : 0 ≤ region.width) (hrh : 0 ≤ region.height) :
    (∀ p, p < polys.length → Rect.Intersects (bboxOf polys p) region = true →
      p ∈ QueryRegion polys cw ch gw gh region) ∧
    (∀ p ∈ QueryRegion polys cw ch gw gh region,
      p < polys.length ∧ Rect.Intersects (bboxOf polys p) region = true) ∧
    (QueryRegion polys cw ch gw gh region).Nodup := by
  refine ⟨?_, ?_, ?_⟩
  · intro p hp hint
    have hmem : bboxOf polys p ∈ polys := by
      rw [bboxOf, List.getD_eq_getElem polys _ hp]
      exact List.getElem_mem hp
    obtain ⟨hw, hh⟩ := hpolys _ hmem
    simp only [Rect.Intersects, decide_eq_true_eq] at hint
    obtain ⟨h1, h2, h3, h4⟩ := hint
    set r := bboxOf polys p with hr
    set tx := max r.x region.x with htx
    set ty := max r.y region.y with hty
    have htx1 : r.x ≤ tx := le_max_left _ _
    have htx2 : tx ≤ r.x + r.width := max_le (by linarith) (le_of_lt h2)
    have htx3 : region.x ≤ tx := le_max_right _ _
    have htx4 : tx ≤ region.x + region.width := max_le (le_of_lt h1) (by linarith)
    have hty1 : r.y ≤ ty := le_max_left _ _
    have hty2 : ty ≤ r.y + r.height := max_le (by linarith) (le_of_lt h4)
    have hty3 : region.y ≤ ty := le_max_right _ _
    have hty4 : ty ≤ region.y + region.height := max_le (le_of_lt h3) (by linarith)
    simp only [QueryRegion, List.mem_filter, List.mem_dedup, List.mem_flatMap,
      List.mem_map]
    refine ⟨⟨(slideToCell cw gw tx, slideToCell ch gh ty), ?_, ?_⟩, ?_⟩
    · refine ⟨slideToCell ch gh ty, ?_, ⟨slideToCell cw gw tx, ?_, rfl⟩⟩
      · rw [mem_cellList]
        exact ⟨slideToCell_mono ch gh _ _ hch hty3, slideToCell_mono ch gh _ _ hch hty4⟩
      · rw [mem_cellList]
        exact ⟨slideToCell_mono cw gw _ _ hcw htx3, slideToCell_mono cw gw _ _ hcw htx4⟩
    · simp only [gridCell, List.mem_filter, List.mem_range, decide_eq_true_eq]
      refine ⟨hp, slideToCell_mono cw gw _ _ hcw htx1, slideToCell_mono cw gw _ _ hcw htx2,
        slideToCell_mono ch gh _ _ hch hty1, slideToCell_mono ch gh _ _ hch hty2⟩
    · simp only [Rect.Intersects, decide_eq_true_eq]
      exact ⟨h1, h2, h3, h4⟩
  · intro p hp
    simp only [QueryRegion, List.mem_filter, List.mem_dedup, List.mem_flatMap] at hp
    obtain ⟨⟨c, _, hcell⟩, hint⟩ := hp
    simp only [gridCell, List.mem_filter, List.mem_range] at hcell
    exact ⟨hcell.1, hint⟩
  · simp only [QueryRegion]
    exact (List.nodup_dedup _).filter _

/-- Witness for C6: two boxes, one meeting the query rectangle and one far
away; the query returns exactly the first. -/
theorem C6_witness :
    0 ∈ QueryRegion [⟨0, 0, 10, 10⟩, ⟨50, 50, 5, 5⟩] 10 10 8 8 ⟨5, 5, 10, 10⟩ ∧
    (∀ p ∈ QueryRegion [⟨0, 0, 10, 10⟩, ⟨50, 50, 5, 5⟩] 10 10 8 8 ⟨5, 5, 10, 10⟩,
      p < 2 ∧ Rect.Intersects (bboxOf [⟨0, 0, 10, 10⟩, ⟨50, 50, 5, 5⟩] p)
        ⟨5, 5, 10, 10⟩ = true) ∧
    (QueryRegion [⟨0, 0, 10, 10⟩, ⟨50, 50, 5, 5⟩] 10 10 8 8 ⟨5, 5, 10, 10⟩).Nodup := by
  have h := C6_queryRegion_exact [⟨0, 0, 10, 10⟩, ⟨50, 50, 5, 5⟩] 10 10 8 8
    ⟨5, 5, 10, 10⟩ (by norm_num) (by norm_num)
    (by intro r hr; fin_cases hr <;> norm_num)
    (by norm_num) (by norm_num)
  refine ⟨h.1 0 (by norm_num) ?_, fun p hp => ?_, h.2.2⟩
  · simp only [Rect.Intersects, bboxOf, decide_eq_true_eq]
    norm_num
  · simpa using h.2.1 p hp

/-! ## UrlSigner, from src/remote/UrlSigner.cpp

Strings are byte lists.  HMAC-SHA256 is the OpenSSL collaborator (out of
scope per the spec), so the digest function is a parameter of the model.
std::map is represented by its key-sorted entry list; the wall clock of
Sign is the explicit parameter now (seconds). -/

abbrev ByteStr := List ℕ

/-- Byte-lexicographic order of std::string operator less-than. -/
abbrev bytesLt (a b : ByteStr) : Prop := List.Lex (· < ·) a b

/-- Uppercase hex digit (std::hex with std::uppercase). -/
def hexDigitUpper (n : ℕ) : ℕ := if n < 10 then 48 + n else 55 + n

/-- Lowercase hex digit (std::hex). -/
def hexDigitLower (n : ℕ) : ℕ := if n < 10 then 48 + n else 87 + n

/-- isalnum in the C locale together with the marks -, _, ., ~ of RFC 3986. -/
def isUnreserved (c : ℕ) : Bool :=
  decide ((48 ≤ c ∧ c ≤ 57) ∨ (65 ≤ c ∧ c ≤ 90) ∨ (97 ≤ c ∧ c ≤ 122) ∨
    c = 45 ∨ c = 95 ∨ c = 46 ∨ c = 126)

/-- UrlSigner::UrlEncode: keep unreserved bytes, emit every other byte as
percent and two uppercase hex digits of its value. -/
def UrlEncode (s : ByteStr) : ByteStr :=
  s.flatMap fun c =>
    if isUnreserved c then [c]
    else [37, hexDigitUpper (c / 16), hexDigitUpper (c % 16)]

/-- Lower-hex rendering of a digest, two digits per byte. -/
def toLowerHex (digest : ByteStr) : ByteStr :=
  digest.flatMap fun b => [hexDigitLower (b / 16), hexDigitLower (b % 16)]

/-- UrlSigner::ComputeHmacSha256: lower-hex of the HMAC digest. -/
def ComputeHmacSha256 (hmac : ByteStr → ByteStr → ByteStr) (secret msg : ByteStr) :
    ByteStr :=
  toLowerHex (hmac secret msg)

/-- One key=value pair of the canonical query. -/
def queryPair (kv : ByteStr × ByteStr) : ByteStr :=
  UrlEncode kv.1 ++ [61] ++ UrlEncode kv.2

/-- UrlSigner::BuildCanonicalQuery: pairs in map order joined by the
ampersand byte 38. -/
def BuildCanonicalQuery : List (ByteStr × ByteStr) → ByteStr
  | [] => []
  | kv :: rest => queryPair kv ++ rest.flatMap fun kv2 => 38 :: queryPair kv2

/-- std::map operator-bracket assignment: insert keeping keys sorted,
overwriting the value when the key is present. -/
def mapInsert (k v : ByteStr) : List (ByteStr × ByteStr) → List (ByteStr × ByteStr)
  | [] => [(k, v)]
  | (k2, v2) :: rest =>
    if bytesLt k k2 then (k, v) :: (k2, v2) :: rest
    else if bytesLt k2 k then (k2, v2) :: mapInsert k v rest
    else (k2, v) :: rest

/-- std::to_string for the nonnegative part. -/
def natToDec (n : ℕ) : ByteStr := (Nat.toDigits 10 n).map Char.toNat

/-- std::to_string of int64. -/
def intToDec (i : ℤ) : ByteStr :=
  if i < 0 then 45 :: natToDec i.natAbs else natToDec i.toNat

/-- The key "exp". -/
def expKey : ByteStr := [101, 120, 112]

/-- UrlSigner::Sign. -/
def Sign (hmac : ByteStr → ByteStr → ByteStr) (secret path : ByteStr)
    (params : List (ByteStr × ByteStr)) (now validitySeconds : ℤ) : ByteStr :=
  if secret = [] then BuildCanonicalQuery params
  else
    let exp := now + validitySeconds
    let signedParams := mapInsert expKey (intToDec exp) params
    let canonicalQuery := BuildCanonicalQuery signedParams
    let signatureBase := path ++ [63] ++ canonicalQuery
    let sig := ComputeHmacSha256 hmac secret signatureBase
    (if canonicalQuery = [] then canonicalQuery else canonicalQuery ++ [38]) ++
      ([115, 105, 103, 61] ++ sig)

/-- UrlSigner::BuildSignedUrl. -/
def BuildSignedUrl (hmac : ByteStr → ByteStr → ByteStr) (secret path : ByteStr)
    (params : List (ByteStr × ByteStr)) (now validitySeconds : ℤ) : ByteStr :=
  let query := Sign hmac secret path params now validitySeconds
  if query = [] then path else path ++ [63] ++ query

/-- Entry keys strictly increase (the std::map representation invariant). -/
def keysSorted (l : List (ByteStr × ByteStr)) : Prop :=
  List.Pairwise (fun a b => bytesLt a.1 b.1) l

theorem mapInsert_ne_nil (k v : ByteStr) (l : List (ByteStr × ByteStr)) :
    mapInsert k v l ≠ [] := by
  cases l with
  | nil => simp [mapInsert]
  | cons kv rest =>
    obtain ⟨k2, v2⟩ := kv
    simp only [mapInsert]
    split_ifs <;> simp

theorem buildCanonicalQuery_ne_nil (l : List (ByteStr × ByteStr)) (h : l ≠ []) :
    BuildCanonicalQuery l ≠ [] := by
  cases l with
  | nil => exact absurd rfl h
  | cons kv rest =>
    simp only [BuildCanonicalQuery, queryPair]
    intro habs
    have := congrArg List.length habs
    simp [List.length_append] at this

theorem mapInsert_mem (k v : ByteStr) (l : List (ByteStr × ByteStr)) :
    ∀ p ∈ mapInsert k v l, p.1 = k ∨ p ∈ l := by
  induction l with
  | nil =>
    intro p hp
    simp only [mapInsert, List.mem_singleton] at hp
    left
    rw [hp]
  | cons kv rest ih =>
    obtain ⟨k2, v2⟩ := kv
    intro p hp
    simp only [mapInsert] at hp
    split_ifs at hp with h1 h2
    · rcases List.mem_cons.mp hp with rfl | hp2
      · left; rfl
      · right; exact hp2
    · rcases List.mem_cons.mp hp with rfl | hp2
      · right; exact List.mem_cons_self _ _
      · rcases ih p hp2 with h | h
        · left; exact h
        · right; exact List.mem_cons_of_mem _ h
    · have hk : k2 = k := by
        rcases (List.Lex.isTrichotomous (· < ·)).trichotomous k k2 with h | h | h
        · exact absurd h h1
        · exact h.symm
        · exact absurd h h2
      rcases List.mem_cons.mp hp with rfl | hp2
      · left; exact hk
      · right; exact List.mem_cons_of_mem _ hp2

theorem mapInsert_sorted (k v : ByteStr) (l : List (ByteStr × ByteStr))
    (h : keysSorted l) : keysSorted (mapInsert k v l) := by
  induction l with
  | nil => simp [mapInsert, keysSorted]
  | cons kv rest ih =>
    obtain ⟨k2, v2⟩ := kv
    unfold keysSorted at h
    rw [List.pairwise_cons] at h
    obtain ⟨h1, h2⟩ := h
    simp only [mapInsert]
    split_ifs with ha hb
    · unfold keysSorted
      rw [List.pairwise_cons]
      refine ⟨fun p hp => ?_, List.pairwise_cons.mpr ⟨h1, h2⟩⟩
      rcases List.mem_cons.mp hp with rfl | hp2
      · exact ha
      · exact trans_of (List.Lex (· < ·)) ha (h1 p hp2)
    · unfold keysSorted
      rw [List.pairwise_cons]
      refine ⟨fun p hp => ?_, ih h2⟩
      rcases mapInsert_mem k v rest p hp with hpk | hpmem
      · rw [hpk]; exact hb
      · exact h1 p hpmem
    · unfold keysSorted
      rw [List.pairwise_cons]
      exact ⟨fun p hp => h1 p hp, h2⟩

theorem toLowerHex_length (d : ByteStr) : (toLowerHex d).length = 2 * d.length := by
  induction d with
  | nil => simp [toLowerHex]
  | cons b rest ih =>
    simp only [toLowerHex, List.flatMap_cons, List.length_append, List.length_cons,
      List.length_nil] at *
    omega

/-- C7 (amended): with a non-empty secret, Sign adds exp = now + V, builds
the canonical query from the key-sorted percent-encoded pairs joined by the
ampersand (unreserved bytes kept, others uppercase-percent-encoded), and
returns canonical, ampersand, sig= and the lower-hex HMAC of
path ? canonical; the result is deterministic for a fixed exp; with an empty
secret it returns the canonical query of the given parameters.
BuildSignedUrl returns path ? query whenever the query is non-empty, which
holds for every non-empty secret.  In the concrete example (secret s, path
/slides, limit=10, exp 1000000000) the output is
exp=1000000000&limit=10&sig= followed by 64 hex characters. -/
theorem C7_sign_canonical_structure (hmac : ByteStr → ByteStr → ByteStr)
    (secret path : ByteStr) (params : List (ByteStr × ByteStr)) (now validity : ℤ)
    (hsec : secret ≠ []) :
    Sign hmac [] path params now validity = BuildCanonicalQuery params ∧
    Sign hmac secret path params now validity =
      BuildCanonicalQuery (mapInsert expKey (intToDec (now + validity)) params) ++ [38] ++
        ([115, 105, 103, 61] ++ toLowerHex (hmac secret (path ++ [63] ++
          BuildCanonicalQuery (mapInsert expKey (intToDec (now + validity)) params)))) ∧
    (keysSorted params →
      keysSorted (mapInsert expKey (intToDec (now + validity)) params)) ∧
    (∀ c : ℕ, (isUnreserved c = true → UrlEncode [c] = [c]) ∧
      (isUnreserved c = false →
        UrlEncode [c] = [37, hexDigitUpper (c / 16), hexDigitUpper (c % 16)])) ∧
    (∀ now2 validity2 : ℤ, now + validity = now2 + validity2 →
      Sign hmac secret path params now validity =
        Sign hmac secret path params now2 validity2) ∧
    (∀ secret2 : ByteStr, Sign hmac secret2 path params now validity ≠ [] →
      BuildSignedUrl hmac secret2 path params now validity =
        path ++ [63] ++ Sign hmac secret2 path params now validity) ∧
    Sign hmac secret path params now validity ≠ [] ∧
    (Sign hmac [115] [47, 115, 108, 105, 100, 101, 115]
        [([108, 105, 109, 105, 116], [49, 48])] 999999700 300 =
      [101, 120, 112, 61, 49, 48, 48, 48, 48, 48, 48, 48, 48, 48, 38,
       108, 105, 109, 105, 116, 61, 49, 48, 38, 115, 105, 103, 61] ++
        toLowerHex (hmac [115]
          [47, 115, 108, 105, 100, 101, 115, 63, 101, 120, 112, 61, 49, 48, 48, 48,
           48, 48, 48, 48, 48, 48, 38, 108, 105, 109, 105, 116, 61, 49, 48])) ∧
    ((∀ s m, (hmac s m).length = 32) →
      (toLowerHex (hmac [115]
        [47, 115, 108, 105, 100, 101, 115, 63, 101, 120, 112, 61, 49, 48, 48, 48,
         48, 48, 48, 48, 48, 48, 38, 108, 105, 109, 105, 116, 61, 49, 48])).length = 64) := by
  have hstruct : ∀ secret2 : ByteStr, secret2 ≠ [] → ∀ path2 : ByteStr,
      ∀ params2 : List (ByteStr × ByteStr), ∀ n2 v2 : ℤ,
      Sign hmac secret2 path2 params2 n2 v2 =
        BuildCanonicalQuery (mapInsert expKey (intToDec (n2 + v2)) params2) ++ [38] ++
          ([115, 105, 103, 61] ++ toLowerHex (hmac secret2 (path2 ++ [63] ++
            BuildCanonicalQuery (mapInsert expKey (intToDec (n2 + v2)) params2)))) := by
    intro secret2 hs2 path2 params2 n2 v2
    simp only [Sign, ComputeHmacSha256]
    rw [if_neg hs2,
      if_neg (buildCanonicalQuery_ne_nil _ (mapInsert_ne_nil expKey _ params2))]
  refine ⟨by simp [Sign], hstruct secret hsec path params now validity, ?_, ?_, ?_, ?_, ?_, ?_, ?_⟩
  · exact mapInsert_sorted expKey _ params
  · intro c
    constructor
    · intro hc
      simp [UrlEncode, hc]
    · intro hc
      simp [UrlEncode, hc]
  · intro now2 validity2 h
    simp only [Sign, h]
  · intro secret2 hq
    simp only [BuildSignedUrl]
    rw [if_neg hq]
  · rw [hstruct secret hsec path params now validity]
    intro habs
    have := congrArg List.length habs
    simp [List.length_append] at this
  · rw [hstruct [115] (by simp) [47, 115, 108, 105, 100, 101, 115]
      [([108, 105, 109, 105, 116], [49, 48])] 999999700 300]
    have hc : BuildCanonicalQuery (mapInsert expKey (intToDec (999999700 + 300))
        [([108, 105, 109, 105, 116], [49, 48])]) =
        [101, 120, 112, 61, 49, 48, 48, 48, 48, 48, 48, 48, 48, 48, 38,
         108, 105, 109, 105, 116, 61, 49, 48] := by decide
    rw [hc]
    simp [List.cons_append, List.nil_append, List.append_assoc]
  · intro h32
    rw [toLowerHex_length, h32]

/-- Counterexample for C7 as frozen: with an empty secret and no
parameters, the query is empty and BuildSignedUrl returns the bare path,
not path followed by a question mark and the query. -/
theorem C7_counterexample :
    BuildSignedUrl (fun _ _ => List.replicate 32 0) [] [47, 97] [] 0 300 = [47, 97] ∧
    [47, 97] ≠ [47, 97] ++ [63] ++
      Sign (fun _ _ => List.replicate 32 0) [] [47, 97] [] 0 300 := by
  constructor
  · decide
  · decide

/-- Witness for C7: with a non-empty secret the signed URL is
path ? query at concrete inputs. -/
theorem C7_witness :
    BuildSignedUrl (fun _ _ => List.replicate 32 0) [115] [47, 97] [] 0 300 =
      [47, 97] ++ [63] ++
        Sign (fun _ _ => List.replicate 32 0) [115] [47, 97] [] 0 300 :=
  have h := C7_sign_canonical_structure (fun _ _ => List.replicate 32 0) [115]
    [47, 97] [] 0 300 (by simp)
  h.2.2.2.2.2.1 [115] h.2.2.2.2.2.2.1

/-! ## RemoteSlideSource, from src/remote/RemoteSlideSource.cpp

The WsiStreamClient and the stb_image JPEG decoder are external
collaborators: FetchTile is a function from the tile coordinates and the
attempt number to a TileFetchResult, and the decoder is a function from the
JPEG bytes to an optional decoded tile.  The output pixel buffer is a
function from the int64 pixel offset to the pixel value. -/

structure TileFetchResult where
  success : Bool
  jpegData : ByteStr

structure DecodedTile where
  width : ℤ
  height : ℤ
  pixels : ℤ → ℕ

/-- Retry loop of RemoteSlideSource::FetchAndDecodeTile from a given
attempt with the given attempts remaining; the second component counts the
FetchTile calls made. -/
def fetchLoop (fetch : ℕ → TileFetchResult) (decode : ByteStr → Option DecodedTile) :
    ℕ → ℕ → Option DecodedTile × ℕ
  | _, 0 => (none, 0)
  | attempt, remaining + 1 =>
    let r := fetch attempt
    if r.success then
      match decode r.jpegData with
      | some t => (some t, 1)
      | none => (none, 1)
    else
      let rec2 := fetchLoop fetch decode (attempt + 1) remaining
      (rec2.1, rec2.2 + 1)

/-- RemoteSlideSource::FetchAndDecodeTile: MAX_RETRIES = 3 attempts. -/
def FetchAndDecodeTile (fetch : ℕ → TileFetchResult)
    (decode : ByteStr → Option DecodedTile) : Option DecodedTile × ℕ :=
  fetchLoop fetch decode 0 3

/-- memcpy of count pixels from src at srcBase to the buffer at dstBase. -/
def copyCols (src : ℤ → ℕ) (srcBase dstBase : ℤ) (buf : ℤ → ℕ) : ℕ → (ℤ → ℕ)
  | 0 => buf
  | n + 1 =>
    let buf2 := copyCols src srcBase dstBase buf n
    fun j => if j = dstBase + n then src (srcBase + n) else buf2 j

/-- The row loop of the tile blit: row r copies srcW pixels from tile
offset (srcY + r) * actualW + srcX to buffer offset (dstY + r) * width +
dstX. -/
def copyRows (src : ℤ → ℕ) (actualW width srcX srcY dstX dstY : ℤ) (srcW : ℕ)
    (buf : ℤ → ℕ) : ℕ → (ℤ → ℕ)
  | 0 => buf
  | r + 1 =>
    let buf2 := copyRows src actualW width srcX srcY dstX dstY srcW buf r
    copyCols src ((srcY + r) * actualW + srcX) ((dstY + r) * width + dstX) buf2 srcW

/-- Compositing of one fetched tile into the output buffer; a failed fetch
or decode (none) and empty source regions leave the buffer unchanged. -/
def compositeOne (width levelX levelY levelW levelH tileSize tx ty : ℤ)
    (res : Option DecodedTile) (buf : ℤ → ℕ) : ℤ → ℕ :=
  match res with
  | none => buf
  | some t =>
    if t.width ≤ 0 ∨ t.height ≤ 0 then buf
    else
      let tileOriginX := tx * tileSize
      let tileOriginY := ty * tileSize
      let srcX := max 0 (levelX - tileOriginX)
      let srcY := max 0 (levelY - tileOriginY)
      let srcW := min (t.width - srcX) (levelX + levelW - tileOriginX - srcX)
      let srcH := min (t.height - srcY) (levelY + levelH - tileOriginY - srcY)
      let srcW2 := min srcW (t.width - srcX)
      let srcH2 := min srcH (t.height - srcY)
      if srcW2 ≤ 0 ∨ srcH2 ≤ 0 then buf
      else
        let dstX := max 0 (tileOriginX - levelX)
        let dstY := max 0 (tileOriginY - levelY)
        copyRows t.pixels t.width width srcX srcY dstX dstY srcW2.toNat buf srcH2.toNat

/-- Covered server tiles, row-major as in the C++ double loop. -/
def tileCoverList (startX endX startY endY : ℤ) : List (ℤ × ℤ) :=
  (cellList startY endY).flatMap fun ty => (cellList startX endX).map fun tx => (tx, ty)

/-- The composite loop of ReadRegion over a zero-initialized buffer. -/
def compositeAll (width levelX levelY levelW levelH tileSize : ℤ)
    (fetch : ℤ → ℤ → ℕ → TileFetchResult) (decode : ByteStr → Option DecodedTile)
    (tiles : List (ℤ × ℤ)) : ℤ → ℕ :=
  tiles.foldl
    (fun buf c => compositeOne width levelX levelY levelW levelH tileSize c.1 c.2
      (FetchAndDecodeTile (fetch c.1 c.2) decode).1 buf)
    fun _ => 0

/-- SIZE_MAX on a 64-bit platform. -/
def sizeMax : ℕ := 2 ^ 64 - 1

/-- static_cast int64_t of a size_t value: two's-complement wrap. -/
def int64OfNat (n : ℕ) : ℤ :=
  if n % 2 ^ 64 < 2 ^ 63 then ((n % 2 ^ 64 : ℕ) : ℤ)
  else ((n % 2 ^ 64 : ℕ) : ℤ) - 2 ^ 64

/-- RemoteSlideSource::ReadRegion.  Guards in source order, then the tile
range at the level (int64 division truncates toward zero) and the composite
loop over the zeroed buffer. -/
def ReadRegion (valid connected : Bool) (downsample : ℚ) (tileSize x y width height : ℤ)
    (fetch : ℤ → ℤ → ℕ → TileFetchResult) (decode : ByteStr → Option DecodedTile) :
    Option (ℤ → ℕ) :=
  if valid = false ∨ connected = false then none
  else if width ≤ 0 ∨ height ≤ 0 then none
  else if int64OfNat (sizeMax / height.toNat) < width then none
  else if downsample ≤ 0 then none
  else if tileSize ≤ 0 then none
  else
    let levelX := cTrunc ((x : ℚ) / downsample)
    let levelY := cTrunc ((y : ℚ) / downsample)
    let startTileX := Int.tdiv levelX tileSize
    let startTileY := Int.tdiv levelY tileSize
    let endTileX := Int.tdiv (levelX + width - 1) tileSize
    let endTileY := Int.tdiv (levelY + height - 1) tileSize
    some (compositeAll width levelX levelY width height tileSize fetch decode
      (tileCoverList startTileX endTileX startTileY endTileY))

theorem fetchLoop_count_le (fetch : ℕ → TileFetchResult)
    (decode : ByteStr → Option DecodedTile) :
    ∀ remaining attempt, (fetchLoop fetch decode attempt remaining).2 ≤ remaining ∧
      (0 < remaining → 1 ≤ (fetchLoop fetch decode attempt remaining).2) := by
  intro remaining
  induction remaining with
  | zero => intro attempt; simp [fetchLoop]
  | succ remaining ih =>
    intro attempt
    simp only [fetchLoop]
    split_ifs with h
    · cases hdec : decode (fetch attempt).jpegData <;> simp
    · have h1 := (ih (attempt + 1)).1
      refine ⟨?_, fun _ => ?_⟩
      · simp only []
        omega
      · simp only []
        omega

theorem mem_tileCoverList (startX endX startY endY tx ty : ℤ)
    (hx1 : startX ≤ tx) (hx2 : tx ≤ endX) (hy1 : startY ≤ ty) (hy2 : ty ≤ endY) :
    (tx, ty) ∈ tileCoverList startX endX startY endY := by
  unfold tileCoverList
  rw [List.mem_flatMap]
  refine ⟨ty, (mem_cellList _ _ _).mpr ⟨hy1, hy2⟩, ?_⟩
  rw [List.mem_map]
  exact ⟨tx, (mem_cellList _ _ _).mpr ⟨hx1, hx2⟩, rfl⟩

theorem compositeAll_all_failed (width levelX levelY levelW levelH tileSize : ℤ)
    (fetch : ℤ → ℤ → ℕ → TileFetchResult) (decode : ByteStr → Option DecodedTile)
    (tiles : List (ℤ × ℤ))
    (hfail : ∀ tx ty, (FetchAndDecodeTile (fetch tx ty) decode).1 = none) :
    compositeAll width levelX levelY levelW levelH tileSize fetch decode tiles =
      fun _ => 0 := by
  unfold compositeAll
  have haux : ∀ (l : List (ℤ × ℤ)) (buf : ℤ → ℕ),
      l.foldl (fun buf c => compositeOne width levelX levelY levelW levelH tileSize
        c.1 c.2 (FetchAndDecodeTile (fetch c.1 c.2) decode).1 buf) buf = buf := by
    intro l
    induction l with
    | nil => intro buf; rfl
    | cons c rest ih =>
      intro buf
      simp only [List.foldl_cons, hfail c.1 c.2]
      exact ih buf
  exact haux _ _

/-- Level coordinate of a level-0 coordinate (double division, truncated). -/
def levelCoord (v : ℤ) (downsample : ℚ) : ℤ := cTrunc ((v : ℚ) / downsample)

/-- The server tiles covering the requested region. -/
def coverOf (downsample : ℚ) (tileSize x y width height : ℤ) : List (ℤ × ℤ) :=
  tileCoverList (Int.tdiv (levelCoord x downsample) tileSize)
    (Int.tdiv (levelCoord x downsample + width - 1) tileSize)
    (Int.tdiv (levelCoord y downsample) tileSize)
    (Int.tdiv (levelCoord y downsample + height - 1) tileSize)

theorem int64OfNat_small (n : ℕ) (h : n < 2 ^ 63) : int64OfNat n = (n : ℤ) := by
  unfold int64OfNat
  rw [Nat.mod_eq_of_lt (lt_trans h (by norm_num))]
  rw [if_pos h]

theorem readRegion_fetch_path (valid connected : Bool) (downsample : ℚ)
    (tileSize x y width height : ℤ) (fetch : ℤ → ℤ → ℕ → TileFetchResult)
    (decode : ByteStr → Option DecodedTile)
    (hv : valid = true) (hc : connected = true) (hw : 0 < width) (hh : 0 < height)
    (hov : ¬ int64OfNat (sizeMax / height.toNat) < width)
    (hd : 0 < downsample) (ht : 0 < tileSize) :
    ReadRegion valid connected downsample tileSize x y width height fetch decode =
      some (compositeAll width (levelCoord x downsample) (levelCoord y downsample)
        width height tileSize fetch decode
        (coverOf downsample tileSize x y width height)) := by
  simp only [ReadRegion]
  rw [if_neg (by simp [hv, hc]), if_neg (by push_neg; omega), if_neg hov,
    if_neg (not_le.mpr hd), if_neg (not_le.mpr ht)]
  rfl

/-- C10: ReadRegion returns null without any tile fetch whenever the source
is invalid or the client disconnected, the requested extent is nonpositive,
the pixel count would overflow size_t, the level downsample is nonpositive,
or the server tile size is nonpositive; on the fetching path the composite
runs over a buffer that is all zeros before any tile is composited. -/
theorem C10_readRegion_guards (valid connected : Bool) (downsample : ℚ)
    (tileSize x y width height : ℤ) (fetch : ℤ → ℤ → ℕ → TileFetchResult)
    (decode : ByteStr → Option DecodedTile) (hw64 : width < 2 ^ 63) :
    (valid = false ∨ connected = false →
      ReadRegion valid connected downsample tileSize x y width height fetch decode = none) ∧
    (width ≤ 0 ∨ height ≤ 0 →
      ReadRegion valid connected downsample tileSize x y width height fetch decode = none) ∧
    (2 ^ 64 ≤ width.toNat * height.toNat →
      ReadRegion valid connected downsample tileSize x y width height fetch decode = none) ∧
    (downsample ≤ 0 →
      ReadRegion valid connected downsample tileSize x y width height fetch decode = none) ∧
    (tileSize ≤ 0 →
      ReadRegion valid connected downsample tileSize x y width height fetch decode = none) ∧
    (valid = true → connected = true → 0 < width → 0 < height →
      ¬ int64OfNat (sizeMax / height.toNat) < width → 0 < downsample → 0 < tileSize →
      ReadRegion valid connected downsample tileSize x y width height fetch decode =
        some (compositeAll width (levelCoord x downsample) (levelCoord y downsample)
          width height tileSize fetch decode
          (coverOf downsample tileSize x y width height)) ∧
      compositeAll width (levelCoord x downsample) (levelCoord y downsample)
        width height tileSize fetch decode [] = fun _ => 0) := by
  refine ⟨?_, ?_, ?_, ?_, ?_, ?_⟩
  · intro hcond
    simp only [ReadRegion]
    split_ifs
    rfl
  · intro hcond
    simp only [ReadRegion]
    split_ifs <;> rfl
  · intro hov
    simp only [ReadRegion]
    split_ifs with h1 h2 h3 h4 h5 <;> try rfl
    exfalso
    push_neg at h2
    obtain ⟨hwpos, hhpos⟩ := h2
    have hn2 : 2 ≤ height.toNat := by
      by_contra hcon
      push_neg at hcon
      have h1' : height.toNat = 1 := by omega
      rw [h1', Nat.mul_one] at hov
      omega
    have hdivlt : sizeMax / height.toNat < 2 ^ 63 := by
      have hle2 : sizeMax / height.toNat ≤ sizeMax / 2 :=
        Nat.div_le_div_left hn2 (by norm_num)
      have heq2 : sizeMax / 2 = 2 ^ 63 - 1 := by norm_num [sizeMax]
      omega
    rw [int64OfNat_small _ hdivlt] at h3
    have hle : width ≤ ((sizeMax / height.toNat : ℕ) : ℤ) := not_lt.mp h3
    have hleN : width.toNat ≤ sizeMax / height.toNat := by omega
    have hmul := (Nat.le_div_iff_mul_le (by omega : 0 < height.toNat)).mp hleN
    have hcontra := le_trans hov hmul
    norm_num [sizeMax] at hcontra
  · intro hcond
    simp only [ReadRegion]
    split_ifs <;> rfl
  · intro hcond
    simp only [ReadRegion]
    split_ifs <;> rfl
  · intro hv hc hw hh hov hd ht
    exact ⟨readRegion_fetch_path valid connected downsample tileSize x y width height
      fetch decode hv hc hw hh hov hd ht, rfl⟩

/-- Witness for C10: an invalid source returns none; a 2 by 2 request on a
valid connected source passes the guards. -/
theorem C10_witness :
    ReadRegion false true 1 256 0 0 2 2 (fun _ _ _ => ⟨false, []⟩) (fun _ => none) =
      none ∧
    ReadRegion true true 1 256 0 0 0 2 (fun _ _ _ => ⟨false, []⟩) (fun _ => none) =
      none :=
  ⟨(C10_readRegion_guards false true 1 256 0 0 2 2 (fun _ _ _ => ⟨false, []⟩)
      (fun _ => none) (by norm_num)).1 (Or.inl rfl),
   (C10_readRegion_guards true true 1 256 0 0 0 2 (fun _ _ _ => ⟨false, []⟩)
      (fun _ => none) (by norm_num)).2.1 (Or.inl (le_refl 0))⟩

/-- C8: on the fetching path, ReadRegion's tile list contains every server
tile of the covering range; each tile triggers between 1 and 3 transport
attempts; the k-th attempt is reached only after k transport failures, and
its JPEG-decode outcome ends the loop immediately (a decode failure is
never retried); a tile whose fetch-decode ultimately fails leaves the
buffer unchanged at its composite step; and the call still returns the
composited buffer, which is all zeros when every tile fails. -/
theorem C8_readRegion_retry_and_skip (valid connected : Bool) (downsample : ℚ)
    (tileSize x y width height : ℤ) (fetch : ℤ → ℤ → ℕ → TileFetchResult)
    (decode : ByteStr → Option DecodedTile)
    (hv : valid = true) (hc : connected = true) (hw : 0 < width) (hh : 0 < height)
    (hov : ¬ int64OfNat (sizeMax / height.toNat) < width)
    (hd : 0 < downsample) (ht : 0 < tileSize) :
    ReadRegion valid connected downsample tileSize x y width height fetch decode =
      some (compositeAll width (levelCoord x downsample) (levelCoord y downsample)
        width height tileSize fetch decode
        (coverOf downsample tileSize x y width height)) ∧
    (∀ tx ty : ℤ, Int.tdiv (levelCoord x downsample) tileSize ≤ tx →
      tx ≤ Int.tdiv (levelCoord x downsample + width - 1) tileSize →
      Int.tdiv (levelCoord y downsample) tileSize ≤ ty →
      ty ≤ Int.tdiv (levelCoord y downsample + height - 1) tileSize →
      (tx, ty) ∈ coverOf downsample tileSize x y width height) ∧
    (∀ (f : ℕ → TileFetchResult) (d : ByteStr → Option DecodedTile),
      1 ≤ (FetchAndDecodeTile f d).2 ∧ (FetchAndDecodeTile f d).2 ≤ 3) ∧
    (∀ (f : ℕ → TileFetchResult) (d : ByteStr → Option DecodedTile) (k : ℕ), k < 3 →
      (∀ j, j < k → (f j).success = false) → (f k).success = true →
      (d (f k).jpegData = none → FetchAndDecodeTile f d = (none, k + 1)) ∧
      (∀ t, d (f k).jpegData = some t → FetchAndDecodeTile f d = (some t, k + 1))) ∧
    (∀ f : ℕ → TileFetchResult, (∀ j, j < 3 → (f j).success = false) →
      ∀ d : ByteStr → Option DecodedTile, FetchAndDecodeTile f d = (none, 3)) ∧
    (∀ (tx ty : ℤ) (buf : ℤ → ℕ),
      (FetchAndDecodeTile (fetch tx ty) decode).1 = none →
      compositeOne width (levelCoord x downsample) (levelCoord y downsample)
        width height tileSize tx ty
        (FetchAndDecodeTile (fetch tx ty) decode).1 buf = buf) ∧
    ((∀ tx ty : ℤ, (FetchAndDecodeTile (fetch tx ty) decode).1 = none) →
      ReadRegion valid connected downsample tileSize x y width height fetch decode =
        some fun _ => 0) := by
  refine ⟨readRegion_fetch_path valid connected downsample tileSize x y width height
    fetch decode hv hc hw hh hov hd ht, ?_, ?_, ?_, ?_, ?_, ?_⟩
  · intro tx ty hx1 hx2 hy1 hy2
    exact mem_tileCoverList _ _ _ _ tx ty hx1 hx2 hy1 hy2
  · intro f d
    have h1 := (fetchLoop_count_le f d 3 0).1
    have h2 := (fetchLoop_count_le f d 3 0).2 (by omega)
    exact ⟨h2, h1⟩
  · intro f d k hk hfail hsucc
    interval_cases k
    · constructor
      · intro hdec
        simp [FetchAndDecodeTile, fetchLoop, hsucc, hdec]
      · intro t hdec
        simp [FetchAndDecodeTile, fetchLoop, hsucc, hdec]
    · constructor
      · intro hdec
        simp [FetchAndDecodeTile, fetchLoop, hfail 0 (by omega), hsucc, hdec]
      · intro t hdec
        simp [FetchAndDecodeTile, fetchLoop, hfail 0 (by omega), hsucc, hdec]
    · constructor
      · intro hdec
        simp [FetchAndDecodeTile, fetchLoop, hfail 0 (by omega), hfail 1 (by omega),
          hsucc, hdec]
      · intro t hdec
        simp [FetchAndDecodeTile, fetchLoop, hfail 0 (by omega), hfail 1 (by omega),
          hsucc, hdec]
  · intro f hfail d
    simp [FetchAndDecodeTile, fetchLoop, hfail 0 (by omega), hfail 1 (by omega),
      hfail 2 (by omega)]
  · intro tx ty buf hnone
    rw [hnone]
    rfl
  · intro hall
    rw [readRegion_fetch_path valid connected downsample tileSize x y width height
      fetch decode hv hc hw hh hov hd ht]
    rw [compositeAll_all_failed _ _ _ _ _ _ _ _ _ hall]

/-- Witness for C8: a 2 by 2 region on a server whose transport always
fails yields the zeroed buffer. -/
theorem C8_witness :
    ReadRegion true true 1 256 0 0 2 2 (fun _ _ _ => ⟨false, []⟩) (fun _ => none) =
      some fun _ => 0 := by
  have h := C8_readRegion_retry_and_skip true true 1 256 0 0 2 2
    (fun _ _ _ => ⟨false, []⟩) (fun _ => none) rfl rfl (by norm_num) (by norm_num)
    (by decide) (by norm_num) (by norm_num)
  refine h.2.2.2.2.2.2 fun tx ty => ?_
  have hall := h.2.2.2.2.1 (fun _ => ⟨false, []⟩) (fun j _ => rfl) (fun _ => none)
  rw [hall]

/-- Witness for C9 at the example viewport and a concrete point. -/
theorem C9_witness :
    |(SlideToScreen exampleViewport (ScreenToSlide exampleViewport ⟨123, 456⟩)).x - 123| ≤ 1 ∧
    |(SlideToScreen exampleViewport (ScreenToSlide exampleViewport ⟨123, 456⟩)).y - 456| ≤ 1 :=
  C9_roundtrip_within_one_pixel exampleViewport ⟨123, 456⟩ (by norm_num [exampleViewport])

end PathView
